import Mathlib

/-!
Verification of the modpacker core library (src/lib/modpack.js) against its
natural-language specification.

The JavaScript source is shallowly embedded: each function of the library that
the claims mention is translated into an executable Lean definition that keeps
the source's control flow, data layout and JavaScript quirks (object key
insertion order, `splice(undefined, 1)` coercing the start index to 0, the
`for (let i = 0; i !== config.mods.length - 1; i++)` loop bound, property
access on `undefined` throwing a TypeError, and so on).  Theorems about these
definitions settle the claims.
-/

namespace Modpacker





/-! ## Data model (src/lib/modpack.js lines 23-49)

`Mod` and `Modpack` are the template objects of the source.  For the
build/bundle/install claims the manifest is already well typed, so the fields
are embedded at their intended types.  (The dynamically typed view used by
`loadModpackConfig` is embedded separately below as `JVal`.) -/

structure MPMod where
  filename : String
  client : Bool
deriving DecidableEq

structure MPModpack where
  version : String
  name : String
  author : String
  minecraftVersion : String
  javaArgs : String
  forgeVersion : String
  mods : List MPMod
deriving DecidableEq

/-- ModpackGeneration (source lines 79-85): result of `buildModpack`. -/
structure ModpackGeneration where
  modpack : MPModpack
  newMods : List String
  removedMods : List String
deriving DecidableEq

/-! ## buildModpack (source lines 234-293)

The on-disk `mods/` directory is embedded as the list of its file names in
enumeration order (the source filters out subdirectories before the diff; the
claims quantify over the resulting file-name set).

JavaScript behaviours kept by the embedding:
* `foundModshm` is a plain object used as a hash set; string keys enumerate in
  insertion order, so it is embedded as an ordered duplicate-free list.
* The index-map loop runs `for (let i = 0; i !== config.mods.length - 1; i++)`,
  so it visits indices `0 .. length - 2` and skips the last recorded mod; with
  an empty mod list the bound is `-1`, the loop body dereferences
  `config.mods[0].filename` on `undefined` and throws a TypeError.
* `config.mods.splice(modsIndexMap[mod], 1)` with a missing map entry passes
  `undefined` as the start index, which `splice` coerces to `0`, removing the
  first element. -/

/-- Insert a key into a JS-object-as-hash-set: no effect when present,
appended otherwise (insertion order preserved). -/
def hmInsert (l : List String) (k : String) : List String :=
  if k ∈ l then l else l ++ [k]

/-- JS object assignment `m[k] = v`: overwrite in place, else append. -/
def hmSet (m : List (String × Nat)) (k : String) (v : Nat) : List (String × Nat) :=
  if m.any (fun p => p.1 = k) then
    m.map (fun p => if p.1 = k then (k, v) else p)
  else m ++ [(k, v)]

/-- JS object lookup `m[k]`: `none` plays the role of `undefined`. -/
def hmGet (m : List (String × Nat)) (k : String) : Option Nat :=
  (m.find? (fun p => p.1 = k)).map (fun p => p.2)

/-- `Array.prototype.splice(start, 1)` for a defined `start`: removes the
element at `start` when in range, nothing otherwise. -/
def spliceRemove (l : List MPMod) (i : Nat) : List MPMod :=
  l.take i ++ l.drop (i + 1)

/-- First pass of `buildModpack` over the recorded mods: consume file names
found on disk, record the rest as removed (source lines 248-257). -/
def diffPass : List MPMod → List String → List String → List String × List String
  | [], found, removed => (found, removed)
  | m :: ms, found, removed =>
    if m.filename ∈ found then diffPass ms (found.erase m.filename) removed
    else diffPass ms found (removed ++ [m.filename])

/-- buildModpack (source lines 234-293).  `modFiles` is the directory listing
after the `isDirectory` filter.  Returns `.error ()` for the TypeError thrown
by the index-map loop when the recorded mod list is empty. -/
def buildModpack (config : MPModpack) (modFiles : List String) :
    Except Unit ModpackGeneration :=
  let found0 := modFiles.foldl hmInsert []
  let fr := diffPass config.mods found0 []
  let newMods := fr.1
  let removedMods := fr.2
  if config.mods.length = 0 then
    .error ()
  else
    let idxMap := (List.range (config.mods.length - 1)).foldl
      (fun m i => hmSet m ((config.mods.getD i ⟨"", false⟩).filename) i) []
    let mods1 := removedMods.foldl
      (fun ms fn => spliceRemove ms ((hmGet idxMap fn).getD 0)) config.mods
    let mods2 := mods1 ++ newMods.map (fun fn => { filename := fn, client := false })
    .ok { modpack := { config with mods := mods2 },
          newMods := newMods, removedMods := removedMods }

/-! ## bundleModpack (source lines 302-354)

The two tar archives are embedded as their names and entry lists.  The
`modpack.yaml` existence test is passed in as a boolean; the archive entry for
a mod is `path.join('mods/', filename)`, which for the plain file names the
directory diff produces is the concatenation `"mods/" ++ filename`.  The
source writes the server archive first, then the full archive. -/

structure TarArchive where
  filename : String
  entries : List String
deriving DecidableEq

def bundleModpack (config : MPModpack) (manifestExists : Bool) :
    Except Unit (List TarArchive) :=
  if config.mods.length = 0 then .error ()
  else if ¬ manifestExists then .error ()
  else
    let serverFiles := config.mods.filter (fun f => ¬ f.client)
    let filename := config.name ++ "-v" ++ config.version
    let allPackFiles := config.mods.map (fun f => "mods/" ++ f.filename)
    let serverPackFiles := serverFiles.map (fun f => "mods/" ++ f.filename)
    let baseFiles := ["modpack.yaml", "config"]
    .ok [ { filename := filename ++ "-server.tar.gz",
            entries := baseFiles ++ serverPackFiles },
          { filename := filename ++ ".tar.gz",
            entries := baseFiles ++ allPackFiles } ]



/-! ## Claims C1, C3, C5, C9 -/

/-- Modpack with recorded mods `a.jar, b.jar`, used as the failing input for
claims C1 and C3. -/
def packAB : MPModpack :=
  { version := "1.0.0", name := "pack", author := "a",
    minecraftVersion := "1.12.2", javaArgs := "", forgeVersion := "",
    mods := [⟨"a.jar", false⟩, ⟨"b.jar", false⟩] }

/-- Modpack with recorded mods `a, b` for claim C5 (spec section 8 example). -/
def packC5 : MPModpack :=
  { version := "2.0", name := "p", author := "a",
    minecraftVersion := "1.12.2", javaArgs := "", forgeVersion := "",
    mods := [⟨"a", false⟩, ⟨"b", true⟩] }




/-! ## loadModpackConfig (source lines 211-226) and the manifest round trip

`loadModpackConfig` works on the dynamically typed value returned by
`yaml.safeLoad`, so this part of the embedding uses a small JavaScript value
type `JVal`.  Behaviours kept:
* `yaml.safeLoad(contents) || 0x7b..0x7d` replaces a falsy parse result with
  the empty object;
* `Object.keys(config).forEach(k => ... config[k] = obj[k] ...)` assigns the
  input document's value for each template key `version, name, author,
  minecraft, forge, mods` even when the key is absent (then `undefined`);
* `config.forge.version` throws a TypeError when `config.forge` is
  `undefined` or `null`; property access on any other non-object value yields
  `undefined`; the `&&` in the check short-circuits, so
  `config.minecraft.version` is only read when `config.forge.version` is
  truthy;
* the explicit `throw new Error('forge.version can only be set when
  minecraft.version is also set')` is the spec's ConfigError. -/

inductive JVal where
  | undefVal : JVal
  | jnull : JVal
  | jstr : String → JVal
  | jbool : Bool → JVal
  | jnum : Int → JVal
  | jarr : List JVal → JVal
  | jobj : List (String × JVal) → JVal

/-- JavaScript truthiness of a `JVal`. -/
def truthy : JVal → Bool
  | .undefVal => false
  | .jnull => false
  | .jstr s => s ≠ ""
  | .jbool b => b
  | .jnum n => n ≠ 0
  | .jarr _ => true
  | .jobj _ => true

/-- Errors the manifest codec can throw: the TypeError from a property read
on `undefined`/`null`, the explicit manifest-content error (the spec's
ConfigError), and the YAMLException `yaml.safeDump` raises on a value it
refuses to serialize. -/
inductive JsErr where
  | typeError : JsErr
  | configError : JsErr
  | yamlError : JsErr
deriving DecidableEq

/-- Property read `v[k]` without the nullish check (used where the source
guarantees the receiver is not `undefined`/`null`): absent keys and non-object
receivers give `undefined`.  YAML mappings have unique keys (js-yaml rejects
duplicates), so first-match lookup is adequate. -/
def pluck : JVal → String → JVal
  | .jobj fs, k => ((fs.find? (fun p => p.1 = k)).map (fun p => p.2)).getD .undefVal
  | _, _ => .undefVal

/-- Property read `v[k]` with the JavaScript TypeError on nullish receivers. -/
def jsGet : JVal → String → Except JsErr JVal
  | .undefVal, _ => .error .typeError
  | .jnull, _ => .error .typeError
  | v, k => .ok (pluck v k)

/-- Does the top level of a document have key `k`? -/
def hasKeyTop : JVal → String → Bool
  | .jobj fs, k => fs.any (fun p => p.1 = k)
  | _, _ => false

/-- The `Modpack` object as produced by `loadModpackConfig`: the six template
keys, each carrying whatever the input document held there. -/
structure LoadedModpack where
  version : JVal
  name : JVal
  author : JVal
  minecraft : JVal
  forge : JVal
  mods : JVal

/-- The projection step of `loadModpackConfig`: plucking the six template
keys off the (already defaulted) document. -/
def projectModpack (obj : JVal) : LoadedModpack :=
  { version := pluck obj "version", name := pluck obj "name",
    author := pluck obj "author", minecraft := pluck obj "minecraft",
    forge := pluck obj "forge", mods := pluck obj "mods" }

/-- loadModpackConfig (source lines 211-226), applied to the parsed document. -/
def loadModpackConfig (x : JVal) : Except JsErr LoadedModpack :=
  let obj := if truthy x then x else .jobj []
  let config := projectModpack obj
  match jsGet config.forge "version" with
  | .error e => .error e
  | .ok fv =>
    if truthy fv then
      match jsGet config.minecraft "version" with
      | .error e => .error e
      | .ok mv => if truthy mv then .ok config else .error .configError
    else .ok config

/-- The document `yaml.safeDump(config)` serializes in `bundleModpack`
(source lines 311-312): exactly the six recognized keys in template order,
with the loaded values.  Whether `safeDump` accepts it is a separate
question, answered by `dumpable` below. -/
def saveDoc (m : LoadedModpack) : JVal :=
  .jobj [("version", m.version), ("name", m.name), ("author", m.author),
         ("minecraft", m.minecraft), ("forge", m.forge), ("mods", m.mods)]

mutual

/-- Can `yaml.safeDump` (default options, `skipInvalid` off) serialize this
value?  js-yaml throws `unacceptable kind of an object to dump` on
`undefined` anywhere in the structure; every other value that can appear
here (null, strings, booleans, numbers, arrays, mappings) is dumped. -/
def dumpable : JVal → Bool
  | .undefVal => false
  | .jnull => true
  | .jstr _ => true
  | .jbool _ => true
  | .jnum _ => true
  | .jarr xs => dumpableArr xs
  | .jobj fs => dumpableObj fs

/-- `dumpable` over the elements of an array. -/
def dumpableArr : List JVal → Bool
  | [] => true
  | x :: xs => dumpable x && dumpableArr xs

/-- `dumpable` over the values of a mapping. -/
def dumpableObj : List (String × JVal) → Bool
  | [] => true
  | (_, v) :: ps => dumpable v && dumpableObj ps

end

/-- The save step `yaml.safeDump(config)`: produce the six-key document, or
throw the YAMLException when a value (in particular an `undefined` field
manufactured by the projection for an absent key) cannot be dumped. -/
def saveModpack (m : LoadedModpack) : Except JsErr JVal :=
  if dumpable (saveDoc m) then .ok (saveDoc m) else .error .yamlError

/-- The allow-list of recognized top-level manifest keys. -/
def recognizedKeys : List String :=
  ["version", "name", "author", "minecraft", "forge", "mods"]



/-! ## installModpack (source lines 360-427)

`installModpack` is a straight line of fallible effects.  The embedding keeps
its state (the persisted registry file, the contents of the target install
directory) and its network calls explicit, and injects failures through a
schedule `f : Option Nat` naming the one primitive operation that throws, by
a fixed numbering following source order:

0. `downloadFile(url, "modpack.tar.gz")`      (network: pack download)
1. `tar.extract`
2. `loadModpackConfig` of the staged manifest
3. `downloadForge`                            (network: forge download)
4. `fs.mkdirp(minecraftHome)`                 (only when the dir is absent)
5/6, 7/8, 9/10. per folder `mods`, `config`, `modpack.yaml`:
   `fs.remove(dest)` (only when dest exists) / the `statSync`+`mkdir`+`copy`
   group, collapsed into one copy step that installs the staged content
11. `saveModpackerConfig`                     (persisting the registry)
12. final `fs.remove(tmpDir)` cleanup

An operation that is not executed on a run cannot fail.  The registry is
loaded from the persisted state at the start, mutated in memory (the forge
version push at line 391, the `installedModpacks` assignment at line 421) and
written back only by step 11. -/

/-- The persisted modpacker config (`ModpackerConfig`, source lines 60-76);
the auth blob is opaque and omitted. -/
structure Registry where
  forgeVersions : List String
  installedModpacks : List (String × MPModpack)
deriving DecidableEq

/-- Who wrote the current contents of an entry of the install directory. -/
inductive Owner where
  | old : Owner
  | new : Owner
deriving DecidableEq

/-- Contents of the `registryHome/modpacks/name` install directory: the three
entries the copy loop touches. -/
structure InstallDir where
  modsDir : Option Owner
  configDir : Option Owner
  manifestFile : Option Owner
deriving DecidableEq

/-- Network requests issued during a run. -/
inductive NetOp where
  | packDownload : NetOp
  | forgeDownload : NetOp
deriving DecidableEq

/-- JS object assignment `installedModpacks[name] = config`: overwrite in
place, else append. -/
def regSet (l : List (String × MPModpack)) (k : String) (v : MPModpack) :
    List (String × MPModpack) :=
  if l.any (fun p => p.1 = k) then
    l.map (fun p => if p.1 = k then (k, v) else p)
  else l ++ [(k, v)]

/-- The forge dedupe block (source lines 385-395): skip when the version is
already cached, otherwise download (op 3) and push the version onto the
in-memory registry.  Returns the in-memory registry and the network calls
made by the block. -/
def forgePhase (reg : Registry) (pack : MPModpack) (f : Option Nat) :
    Except Unit Registry × List NetOp :=
  if pack.forgeVersion ≠ "" then
    if pack.forgeVersion ∈ reg.forgeVersions then (.ok reg, [])
    else if f = some 3 then (.error (), [.forgeDownload])
    else (.ok { reg with forgeVersions := reg.forgeVersions ++ [pack.forgeVersion] },
          [.forgeDownload])
  else (.ok reg, [])

/-- One iteration of the copy loop (source lines 405-419) over one entry:
remove the destination when it exists (op `idR`), then copy the staged
content over it (op `idC`).  Returns whether the iteration threw, and the
entry contents afterwards. -/
def doFolder (f : Option Nat) (idR idC : Nat) (cur : Option Owner) :
    Bool × Option Owner :=
  if cur.isSome then
    if f = some idR then (true, cur)
    else if f = some idC then (true, none)
    else (false, some .new)
  else if f = some idC then (true, cur)
  else (false, some .new)

/-- The copy loop over `mods`, `config`, `modpack.yaml` in source order,
stopping at the first failure. -/
def copyPhase (f : Option Nat) (d : InstallDir) : Bool × InstallDir :=
  let r1 := doFolder f 5 6 d.modsDir
  if r1.1 then (true, { d with modsDir := r1.2 })
  else
    let r2 := doFolder f 7 8 d.configDir
    if r2.1 then (true, { d with modsDir := r1.2, configDir := r2.2 })
    else
      let r3 := doFolder f 9 10 d.manifestFile
      (r3.1, { d with modsDir := r1.2, configDir := r2.2, manifestFile := r3.2 })

/-- Steps after the copy loop: persist the registry (op 11, the only write of
the persisted state) and remove the staging directory (op 12, after the
persist). -/
def finishPhase (reg mem : Registry) (pack : MPModpack) (f : Option Nat)
    (d : Option InstallDir) (tr : List NetOp) :
    Except Unit Unit × Registry × Option InstallDir × List NetOp :=
  if f = some 11 then (.error (), reg, d, tr)
  else
    let reg2 : Registry :=
      { mem with installedModpacks := regSet mem.installedModpacks pack.name pack }
    if f = some 12 then (.error (), reg2, d, tr) else (.ok (), reg2, d, tr)

/-- installModpack (source lines 360-427) under the failure schedule `f`.
`reg` is the persisted registry, `dir0` the current contents of the target
install directory (`none` when absent), `pack` the staged modpack.  Returns
the outcome, the persisted registry, the install directory contents and the
network calls of the run. -/
def installModpack (reg : Registry) (dir0 : Option InstallDir)
    (pack : MPModpack) (f : Option Nat) :
    Except Unit Unit × Registry × Option InstallDir × List NetOp :=
  if f = some 0 ∨ f = some 1 ∨ f = some 2 then
    (.error (), reg, dir0, [.packDownload])
  else
    match forgePhase reg pack f with
    | (.error _, fn) => (.error (), reg, dir0, NetOp.packDownload :: fn)
    | (.ok mem, fn) =>
      let tr := NetOp.packDownload :: fn
      match dir0 with
      | none =>
        if f = some 4 then (.error (), reg, none, tr)
        else
          let r := copyPhase f ⟨none, none, none⟩
          if r.1 then (.error (), reg, some r.2, tr)
          else finishPhase reg mem pack f (some r.2) tr
      | some d0 =>
        let r := copyPhase f d0
        if r.1 then (.error (), reg, some r.2, tr)
        else finishPhase reg mem pack f (some r.2) tr

/-- The install directory of a previously installed pack named p. -/
def oldDirP : InstallDir := ⟨some .old, some .old, some .old⟩

/-- The previously installed version of pack p. -/
def oldPackP : MPModpack :=
  { version := "1", name := "p", author := "a", minecraftVersion := "1.12.2",
    javaArgs := "", forgeVersion := "", mods := [⟨"old.jar", false⟩] }

/-- A newer version of pack p being installed. -/
def newPackP : MPModpack :=
  { version := "2", name := "p", author := "a", minecraftVersion := "1.12.2",
    javaArgs := "", forgeVersion := "", mods := [⟨"new.jar", false⟩] }

/-- Registry that already has pack p installed. -/
def regPrev : Registry := ⟨[], [("p", oldPackP)]⟩

/-- Pack requesting forge version 14.23. -/
def packW : MPModpack :=
  { version := "1", name := "w", author := "a", minecraftVersion := "1.12.2",
    javaArgs := "", forgeVersion := "14.23", mods := [⟨"m.jar", false⟩] }

/-- Registry with forge 14.23 already cached. -/
def regW : Registry := ⟨["14.23"], []⟩



/-! ## Path model for the install-directory sanitization -/

abbrev JsStr := List Char

/-- The `..` path segment. -/
def dd : JsStr := ['.', '.']

/-- Split a string on `/` (`String.prototype.split`-style; the path module's
component view). -/
def splitSlash : JsStr → List JsStr
  | [] => [[]]
  | c :: cs =>
    if c = '/' then [] :: splitSlash cs
    else
      match splitSlash cs with
      | [] => [[c]]
      | p :: ps => (c :: p) :: ps

/-- Join components with `/`. -/
def joinSlash : List JsStr → JsStr
  | [] => []
  | [c] => c
  | c :: cs => c ++ '/' :: joinSlash cs

/-- One step of Node's `normalizeString` stack algorithm (the accumulator is
the reversed stack: head is the most recent component). -/
def normStep (allowAbove : Bool) (stack : List JsStr) (c : JsStr) : List JsStr :=
  if c = [] ∨ c = ['.'] then stack
  else if c = dd then
    match stack with
    | [] => if allowAbove then [dd] else []
    | top :: rest => if top = dd then (if allowAbove then dd :: stack else stack) else rest
  else c :: stack

/-- Node's `normalizeString`: resolve `.` and `..` components, keeping leading
`..` only for relative paths (`allowAbove`). -/
def normComps (allowAbove : Bool) (l : List JsStr) : List JsStr :=
  (l.foldl (normStep allowAbove) []).reverse

/-- A component surviving `normalizeString` filtering: nonempty and not `.`. -/
def goodComp (c : JsStr) : Bool := !(c == [] || c == ['.'])

/-- Stack invariant for `allowAbove = true`: all `..` entries sit at the
bottom of the stack (the end of the reversed-accumulator list). -/
def cleanStack (s : List JsStr) : Prop :=
  ∃ pre k, s = pre ++ List.replicate k dd ∧ dd ∉ pre

/-- Node `path.posix.normalize`.  Splits on `/`, resolves `.` and `..`
through the stack algorithm (`..` may climb above the root only for relative
paths), restores the leading `/` for absolute paths, the `.` for an empty
relative result, and a preserved trailing `/`. -/
def posixNormalize (p : JsStr) : JsStr :=
  if p = [] then ['.']
  else if p.head? = some '/' then
    let body0 := joinSlash (normComps false (splitSlash p))
    let body2 := if body0 ≠ [] ∧ p.getLast? = some '/' then body0 ++ ['/'] else body0
    '/' :: body2
  else
    let body0 := joinSlash (normComps true (splitSlash p))
    let body1 := if body0 = [] then ['.'] else body0
    let body2 := if body1 ≠ [] ∧ p.getLast? = some '/' then body1 ++ ['/'] else body1
    body2

/-- The `.replace(/^(\.\.(\/|\\|$))+/, '')` of installModpack (source line
381): repeatedly strip a leading `..` followed by `/`, `\` or the end of the
string. -/
def stripParent : JsStr → JsStr
  | a :: b :: rest =>
    if a = '.' ∧ b = '.' then
      match rest with
      | [] => []
      | c :: rest2 =>
        if c = '/' ∨ c = '\\' then stripParent rest2
        else a :: b :: rest
    else a :: b :: rest
  | s => s

/-- `String.prototype.toLowerCase`, modelled per character on basic latin
letters (slashes, dots and backslashes are untouched either way). -/
def toLowerJs (s : JsStr) : JsStr := s.map Char.toLower

/-- The name sanitization of installModpack (source line 381):
`path.normalize(name).replace(/^(\.\.(\/|\\|$))+/, '').toLowerCase()`. -/
def sanitizeName (name : JsStr) : JsStr :=
  toLowerJs (stripParent (posixNormalize name))

/-- Node `path.posix.join`: join the non-empty parts with `/` and normalize;
`.` when nothing is left. -/
def pathJoin (parts : List JsStr) : JsStr :=
  let joined := joinSlash (parts.filter (fun q => decide (q ≠ [])))
  if joined = [] then ['.'] else posixNormalize joined

/-- The installation directory of installModpack (source line 381):
`path.join(minecraftHome, 'modpacks/', sanitized)` for the registry home
`home`. -/
def installDir (home name : JsStr) : JsStr :=
  pathJoin [home, "modpacks/".toList, sanitizeName name]

/-- Resolution of an absolute path to its canonical component list (no
`..` may survive above the root). -/
def resolvedAbs (p : JsStr) : List JsStr := normComps false (splitSlash p)

/-- The components of `s` are a run of leading `..` followed by
`..`-free components. -/
def onlyLeadingDots (s : JsStr) : Prop :=
  ∃ k bc, splitSlash s = List.replicate k dd ++ bc ∧ dd ∉ bc

/-- C1: with recorded mods `[a.jar, b.jar]` and on-disk set `a.jar` the removed
file name is the last recorded entry `b.jar`.  The index-map loop skips the
last entry, so the splice start index is `undefined`, coerced to `0`: the diff
deletes `a.jar` (which is on disk) from the mod list and keeps `b.jar` (which
it itself reports as removed).  This evaluates the embedded code at that
failing input. -/
theorem c1_removed_last_mod_not_deleted :
    buildModpack packAB ["a.jar"] =
      .ok { modpack := { packAB with mods := [⟨"b.jar", false⟩] },
            newMods := [], removedMods := ["b.jar"] } := by
  rfl

/-- C3: diff is not idempotent.  Starting from `packAB` and the unchanged
on-disk set `a.jar`, the first diff mangles the mod list (see C1), so the
second diff against the same directory reports `a.jar` as new and `b.jar` as
removed instead of the empty changes the claim requires. -/
theorem c3_diff_not_idempotent :
    (buildModpack packAB ["a.jar"]).bind
        (fun g => buildModpack g.modpack ["a.jar"]) =
      .ok { modpack := { packAB with mods := [⟨"a.jar", false⟩] },
            newMods := ["a.jar"], removedMods := ["b.jar"] } := by
  rfl

/-- C5: for recorded mods `[a, b]` and on-disk set `b, c` the diff yields
`removedMods = [a]`, `newMods = [c]`, and the updated mod list is `b` (kept
as recorded) followed by the new entry `c` with `client = false`. -/
theorem c5_diff_example :
    buildModpack packC5 ["b", "c"] =
      .ok { modpack := { packC5 with mods := [⟨"b", true⟩, ⟨"c", false⟩] },
            newMods := ["c"], removedMods := ["a"] } := by
  rfl

/-- C9: for a modpack with non-empty mods (and the manifest present in the
modpack path), `bundleModpack` produces exactly two archives,
`name-vversion-server.tar.gz` whose entries are the manifest, the config
directory and exactly the mods with `client = false`, and `name-vversion.tar.gz`
whose entries are the manifest, the config directory and all mods. -/
theorem c9_bundle_archives (config : MPModpack) (h : config.mods ≠ []) :
    bundleModpack config true =
      .ok [ { filename := config.name ++ "-v" ++ config.version ++ "-server.tar.gz",
              entries := ["modpack.yaml", "config"] ++
                (config.mods.filter (fun f => ¬ f.client)).map
                  (fun f => "mods/" ++ f.filename) },
            { filename := config.name ++ "-v" ++ config.version ++ ".tar.gz",
              entries := ["modpack.yaml", "config"] ++
                config.mods.map (fun f => "mods/" ++ f.filename) } ] := by
  have hlen : config.mods.length ≠ 0 := by
    simpa [List.length_eq_zero] using h
  simp [bundleModpack, hlen]

/-- Witness for C9 at a concrete two-mod pack with one client-only mod: the
server archive contains only the server mod `b`, the full archive both. -/
theorem c9_bundle_archives_witness :
    bundleModpack { version := "1", name := "n", author := "a",
                    minecraftVersion := "1.12.2", javaArgs := "",
                    forgeVersion := "", mods := [⟨"a", true⟩, ⟨"b", false⟩] } true =
      .ok [ { filename := "n-v1-server.tar.gz",
              entries := ["modpack.yaml", "config", "mods/b"] },
            { filename := "n-v1.tar.gz",
              entries := ["modpack.yaml", "config", "mods/a", "mods/b"] } ] := by
  have h := c9_bundle_archives
    { version := "1", name := "n", author := "a",
      minecraftVersion := "1.12.2", javaArgs := "",
      forgeVersion := "", mods := [⟨"a", true⟩, ⟨"b", false⟩] }
    (by decide)
  simpa using h

/-- A successful load implies the input was truthy and the result is the
six-key projection of the input document. -/
theorem load_ok_shape (x : JVal) (m : LoadedModpack)
    (h : loadModpackConfig x = .ok m) :
    truthy x = true ∧ m = projectModpack x := by
  by_cases hx : truthy x = true
  · refine ⟨hx, ?_⟩
    simp only [loadModpackConfig, hx, if_pos] at h
    rcases hg : jsGet (projectModpack x).forge "version" with e | fv
    · simp [hg] at h
    · simp only [hg] at h
      by_cases hfv : truthy fv = true
      · rcases hg2 : jsGet (projectModpack x).minecraft "version" with e2 | mv
        · simp [hfv, hg2] at h
        · simp only [hfv, hg2, if_pos] at h
          by_cases hmv : truthy mv = true
          · simp [hmv] at h
            exact h.symm
          · simp [hmv] at h
      · simp only [Bool.not_eq_true] at hfv
        simp [hfv] at h
        exact h.symm
  · exfalso
    simp only [Bool.not_eq_true] at hx
    simp [loadModpackConfig, hx, projectModpack, pluck, jsGet] at h



/-! ## Claims C6, C7, C10 -/

/-- C6 counterexample: the manifest omitting the recognized key `author`
loads successfully, the projection manufactures `author = undefined`, and
`yaml.safeDump` then throws its YAMLException on the undefined value, so
`save(load x)` fails instead of reproducing the recognized fields. -/
theorem c6_counterexample :
    loadModpackConfig (JVal.jobj [("version", .jstr "1"), ("name", .jstr "x"),
        ("minecraft", .jobj [("version", .jstr "1.12.2")]), ("forge", .jobj []),
        ("mods", .jarr [])]) =
      .ok (projectModpack (JVal.jobj [("version", .jstr "1"), ("name", .jstr "x"),
        ("minecraft", .jobj [("version", .jstr "1.12.2")]), ("forge", .jobj []),
        ("mods", .jarr [])])) ∧
    (projectModpack (JVal.jobj [("version", .jstr "1"), ("name", .jstr "x"),
        ("minecraft", .jobj [("version", .jstr "1.12.2")]), ("forge", .jobj []),
        ("mods", .jarr [])])).author = .undefVal ∧
    saveModpack (projectModpack (JVal.jobj [("version", .jstr "1"), ("name", .jstr "x"),
        ("minecraft", .jobj [("version", .jstr "1.12.2")]), ("forge", .jobj []),
        ("mods", .jarr [])])) = .error .yamlError :=
  ⟨rfl, rfl, rfl⟩

/-- C6 (amended): the round trip holds whenever both steps succeed.  When
`loadModpackConfig` succeeds on a document `x` and `yaml.safeDump` accepts
the loaded modpack (no recognized field is `undefined`), the saved document
agrees with `x` on every recognized top-level key and carries no top-level
key outside the allow-list, so unrecognized keys of `x` are absent from the
reloaded object.  A manifest omitting a recognized key loads to an object
with that field `undefined` and saving it throws (see the counterexample). -/
theorem c6_load_save_roundtrip (x : JVal) (m : LoadedModpack) (d : JVal)
    (h : loadModpackConfig x = .ok m) (hs : saveModpack m = .ok d) :
    (∀ k ∈ recognizedKeys, pluck d k = pluck x k) ∧
    (∀ k, k ∉ recognizedKeys → hasKeyTop d k = false) := by
  have hd : d = saveDoc m := by
    unfold saveModpack at hs
    split_ifs at hs with hgood
    exact (Except.ok.inj hs).symm
  subst hd
  obtain ⟨hx, hm⟩ := load_ok_shape x m h
  subst hm
  constructor
  · intro k hk
    fin_cases hk <;> rfl
  · intro k hk
    simp only [recognizedKeys, List.mem_cons, List.not_mem_nil, or_false,
      not_or] at hk
    obtain ⟨h1, h2, h3, h4, h5, h6⟩ := hk
    simp only [saveDoc, hasKeyTop, List.any_cons, List.any_nil,
      Bool.or_eq_false_iff, decide_eq_false_iff_not]
    exact ⟨fun hc => h1 hc.symm, fun hc => h2 hc.symm, fun hc => h3 hc.symm,
      fun hc => h4 hc.symm, fun hc => h5 hc.symm, fun hc => h6 hc.symm, trivial⟩

/-- Witness for C6 (amended) at a concrete manifest with all six recognized
keys and one unrecognized key: load and save both succeed, the name field
survives and the extra key is gone. -/
theorem c6_load_save_roundtrip_witness :
    pluck (saveDoc (projectModpack (JVal.jobj [("version", .jstr "1"),
        ("name", .jstr "x"), ("author", .jstr "a"),
        ("minecraft", .jobj [("version", .jstr "1.12.2")]),
        ("forge", .jobj []), ("mods", .jarr []),
        ("extra", .jstr "dropme")]))) "name" =
      pluck (JVal.jobj [("version", .jstr "1"), ("name", .jstr "x"),
        ("author", .jstr "a"),
        ("minecraft", .jobj [("version", .jstr "1.12.2")]),
        ("forge", .jobj []), ("mods", .jarr []),
        ("extra", .jstr "dropme")]) "name" ∧
    hasKeyTop (saveDoc (projectModpack (JVal.jobj [("version", .jstr "1"),
        ("name", .jstr "x"), ("author", .jstr "a"),
        ("minecraft", .jobj [("version", .jstr "1.12.2")]),
        ("forge", .jobj []), ("mods", .jarr []),
        ("extra", .jstr "dropme")]))) "extra" = false := by
  have h := c6_load_save_roundtrip
    (JVal.jobj [("version", .jstr "1"), ("name", .jstr "x"),
      ("author", .jstr "a"),
      ("minecraft", .jobj [("version", .jstr "1.12.2")]),
      ("forge", .jobj []), ("mods", .jarr []), ("extra", .jstr "dropme")])
    (projectModpack (JVal.jobj [("version", .jstr "1"), ("name", .jstr "x"),
      ("author", .jstr "a"),
      ("minecraft", .jobj [("version", .jstr "1.12.2")]),
      ("forge", .jobj []), ("mods", .jarr []), ("extra", .jstr "dropme")]))
    (saveDoc (projectModpack (JVal.jobj [("version", .jstr "1"), ("name", .jstr "x"),
      ("author", .jstr "a"),
      ("minecraft", .jobj [("version", .jstr "1.12.2")]),
      ("forge", .jobj []), ("mods", .jarr []), ("extra", .jstr "dropme")])))
    (by rfl) (by rfl)
  exact ⟨h.1 "name" (by decide), h.2 "extra" (by decide)⟩

/-- C7 counterexample: the empty manifest has no `forge.version` set, so by
the claim the manifest-content check should pass; instead `config.forge` is
`undefined` and the version read throws a TypeError, which is also not the
ConfigError the claim permits. -/
theorem c7_counterexample :
    loadModpackConfig (JVal.jobj []) = .error .typeError ∧
    loadModpackConfig (JVal.jobj []) ≠ .error .configError ∧
    ∀ m, loadModpackConfig (JVal.jobj []) ≠ .ok m := by
  refine ⟨rfl, fun h => ?_, fun m h => ?_⟩
  · have h2 : JsErr.typeError = JsErr.configError := Except.error.inj h
    cases h2
  · exact Except.noConfusion h

/-- C7 amended: restricted to manifests whose top-level `forge` and
`minecraft` values are mappings (so the two property reads cannot throw),
`loadModpackConfig` fails, and fails with the ConfigError, exactly when
`forge.version` is truthy while `minecraft.version` is not; otherwise it
returns the projected modpack. -/
theorem c7_config_check (x : JVal) (fo mo : List (String × JVal))
    (hf : pluck x "forge" = .jobj fo) (hm : pluck x "minecraft" = .jobj mo) :
    (loadModpackConfig x = .error .configError ↔
      (truthy (pluck (.jobj fo) "version") = true ∧
       truthy (pluck (.jobj mo) "version") = false)) ∧
    (¬ (truthy (pluck (.jobj fo) "version") = true ∧
        truthy (pluck (.jobj mo) "version") = false) →
      loadModpackConfig x = .ok (projectModpack x)) := by
  have hobj : ∃ gs, x = JVal.jobj gs := by
    cases x <;> simp [pluck] at hf ⊢
  obtain ⟨gs, rfl⟩ := hobj
  have hx : truthy (JVal.jobj gs) = true := rfl
  have hfield : (projectModpack (JVal.jobj gs)).forge = .jobj fo := hf
  have hfield2 : (projectModpack (JVal.jobj gs)).minecraft = .jobj mo := hm
  constructor
  · constructor
    · intro h
      simp only [loadModpackConfig, hx, if_pos, hfield, hfield2, jsGet] at h
      by_cases hfv : truthy (pluck (.jobj fo) "version") = true
      · simp only [hfv, if_pos] at h
        by_cases hmv : truthy (pluck (.jobj mo) "version") = true
        · simp [hmv] at h
        · simp only [Bool.not_eq_true] at hmv
          exact ⟨hfv, hmv⟩
      · simp only [Bool.not_eq_true] at hfv
        simp [hfv] at h
    · rintro ⟨hfv, hmv⟩
      simp [loadModpackConfig, hx, hfield, hfield2, jsGet, hfv, hmv]
  · intro hno
    simp only [loadModpackConfig, hx, if_pos, hfield, hfield2, jsGet]
    by_cases hfv : truthy (pluck (.jobj fo) "version") = true
    · have hmv : truthy (pluck (.jobj mo) "version") = true := by
        by_contra hc
        simp only [Bool.not_eq_true] at hc
        exact hno ⟨hfv, hc⟩
      simp [hfv, hmv]
    · simp only [Bool.not_eq_true] at hfv
      simp [hfv]

/-- Witness for C7 (amended): a manifest with `forge.version` set and an empty
`minecraft` mapping fails with the ConfigError. -/
theorem c7_config_check_witness :
    loadModpackConfig (JVal.jobj [("minecraft", .jobj []),
      ("forge", .jobj [("version", .jstr "14.23")])]) = .error .configError := by
  have h := c7_config_check
    (JVal.jobj [("minecraft", .jobj []), ("forge", .jobj [("version", .jstr "14.23")])])
    [("version", .jstr "14.23")] [] (by rfl) (by rfl)
  exact h.1.mpr (by constructor <;> rfl)

/-- C10: the projection assigns `obj[k]` for every template key even when the
key is absent, so a manifest without a top-level `forge` mapping yields
`config.forge = undefined` and the content check's `config.forge.version`
read throws a TypeError: load fails instead of returning a modpack with the
template's empty forge section. -/
theorem c10_missing_forge_fails (x : JVal) (h : hasKeyTop x "forge" = false) :
    loadModpackConfig x = .error .typeError := by
  by_cases hx : truthy x = true
  · have hforge : pluck x "forge" = .undefVal := by
      cases x with
      | jobj fs =>
        have hfind : fs.find? (fun p => p.1 = "forge") = none := by
          rw [List.find?_eq_none]
          intro p hp
          simp only [decide_eq_true_eq]
          intro hc
          have hmem : fs.any (fun p => p.1 = "forge") = true :=
            List.any_eq_true.mpr ⟨p, hp, by simp [hc]⟩
          rw [hasKeyTop] at h
          rw [h] at hmem
          cases hmem
        simp [pluck, hfind]
      | undefVal => rfl
      | jnull => rfl
      | jstr s => rfl
      | jbool b => rfl
      | jnum n => rfl
      | jarr xs => rfl
    have hfield : (projectModpack x).forge = .undefVal := hforge
    simp [loadModpackConfig, hx, hfield, jsGet]
  · simp only [Bool.not_eq_true] at hx
    simp [loadModpackConfig, hx, projectModpack, pluck, jsGet]

/-- Witness for C10 at a concrete manifest that has a name but no forge
section. -/
theorem c10_missing_forge_fails_witness :
    loadModpackConfig (JVal.jobj [("name", .jstr "n"),
      ("minecraft", .jobj [("version", .jstr "1.12.2")])]) = .error .typeError :=
  c10_missing_forge_fails
    (JVal.jobj [("name", .jstr "n"),
      ("minecraft", .jobj [("version", .jstr "1.12.2")])]) (by decide)

/-- A folder iteration that does not throw installs the staged content. -/
theorem doFolder_ok (f : Option Nat) (idR idC : Nat) (cur cur2 : Option Owner)
    (h : doFolder f idR idC cur = (false, cur2)) : cur2 = some .new := by
  unfold doFolder at h
  split_ifs at h <;> simp_all

/-- A folder iteration whose two operation ids are not scheduled to fail
succeeds and installs the staged content. -/
theorem doFolder_early (f : Option Nat) (idR idC : Nat) (cur : Option Owner)
    (h1 : f ≠ some idR) (h2 : f ≠ some idC) :
    doFolder f idR idC cur = (false, some .new) := by
  unfold doFolder
  split_ifs <;> simp_all

/-- A successful copy phase leaves all three entries written by the new pack. -/
theorem copyPhase_ok (f : Option Nat) (d d2 : InstallDir)
    (h : copyPhase f d = (false, d2)) :
    d2 = ⟨some .new, some .new, some .new⟩ := by
  simp only [copyPhase] at h
  rcases hd1 : doFolder f 5 6 d.modsDir with ⟨b1, m1⟩
  rw [hd1] at h
  cases b1
  · simp only [Bool.false_eq_true, if_false] at h
    rcases hd2 : doFolder f 7 8 d.configDir with ⟨b2, c1⟩
    rw [hd2] at h
    cases b2
    · simp only [Bool.false_eq_true, if_false] at h
      rcases hd3 : doFolder f 9 10 d.manifestFile with ⟨b3, y1⟩
      rw [hd3] at h
      have h2 := congrArg Prod.snd h
      simp only at h2
      rw [← h2]
      rw [doFolder_ok f 5 6 d.modsDir m1 hd1,
        doFolder_ok f 7 8 d.configDir c1 hd2]
      have hb3 : b3 = false := by
        have := congrArg Prod.fst h
        simpa using this
      rw [hb3] at hd3
      rw [doFolder_ok f 9 10 d.manifestFile y1 hd3]
    · simp at h
  · simp at h

/-- A failure schedule naming an operation before the copy loop cannot make
the copy loop fail. -/
theorem copyPhase_early (f : Option Nat) (d : InstallDir)
    (h : ∀ n, f = some n → n < 5) :
    copyPhase f d = (false, ⟨some .new, some .new, some .new⟩) := by
  have h5 : f ≠ some 5 := fun hc => by have := h 5 hc; omega
  have h6 : f ≠ some 6 := fun hc => by have := h 6 hc; omega
  have h7 : f ≠ some 7 := fun hc => by have := h 7 hc; omega
  have h8 : f ≠ some 8 := fun hc => by have := h 8 hc; omega
  have h9 : f ≠ some 9 := fun hc => by have := h 9 hc; omega
  have h10 : f ≠ some 10 := fun hc => by have := h 10 hc; omega
  have e1 := doFolder_early f 5 6 d.modsDir h5 h6
  have e2 := doFolder_early f 7 8 d.configDir h7 h8
  have e3 := doFolder_early f 9 10 d.manifestFile h9 h10
  simp [copyPhase, e1, e2, e3]



/-! ## Structure lemmas about installModpack runs -/

/-- forgePhase with the version already cached: no network call, registry
unchanged. -/
theorem forgePhase_skip (reg : Registry) (pack : MPModpack) (f : Option Nat)
    (h1 : pack.forgeVersion ≠ "")
    (h2 : pack.forgeVersion ∈ reg.forgeVersions) :
    forgePhase reg pack f = (.ok reg, []) := by
  simp [forgePhase, h1, h2]

/-- forgePhase with no forge version requested: no network call. -/
theorem forgePhase_empty (reg : Registry) (pack : MPModpack) (f : Option Nat)
    (h1 : pack.forgeVersion = "") :
    forgePhase reg pack f = (.ok reg, []) := by
  simp [forgePhase, h1]

/-- forgePhase downloading successfully: the version is pushed in memory. -/
theorem forgePhase_download (reg : Registry) (pack : MPModpack) (f : Option Nat)
    (h1 : pack.forgeVersion ≠ "")
    (h2 : pack.forgeVersion ∉ reg.forgeVersions)
    (h3 : f ≠ some 3) :
    forgePhase reg pack f =
      (.ok { reg with forgeVersions := reg.forgeVersions ++ [pack.forgeVersion] },
       [.forgeDownload]) := by
  simp [forgePhase, h1, h2, h3]

/-- forgePhase can only throw at operation 3, the forge download. -/
theorem forgePhase_err_f3 (reg : Registry) (pack : MPModpack) (f : Option Nat)
    (e : Unit) (fn : List NetOp) (h : forgePhase reg pack f = (.error e, fn)) :
    f = some 3 := by
  unfold forgePhase at h
  split_ifs at h <;> simp_all

/-- Outcomes of a run whose forge phase succeeded: the trace is the pack
download plus the forge phase's calls; the persisted registry is either
untouched or the fully updated in-memory registry, the latter only when the
run succeeded or only the final cleanup failed; and whenever the persisted
registry changed at all, the copy loop had completed, leaving all three
install-directory entries written by the new pack. -/
theorem install_after_ok (reg mem : Registry) (fn : List NetOp)
    (dir0 : Option InstallDir) (pack : MPModpack) (f : Option Nat)
    (hfp : forgePhase reg pack f = (.ok mem, fn))
    (h012 : ¬(f = some 0 ∨ f = some 1 ∨ f = some 2)) :
    (installModpack reg dir0 pack f).2.2.2 = NetOp.packDownload :: fn ∧
    ((installModpack reg dir0 pack f).2.1 = reg ∨
      ((installModpack reg dir0 pack f).2.1 =
         { mem with installedModpacks := regSet mem.installedModpacks pack.name pack } ∧
       ((installModpack reg dir0 pack f).1 = .ok () ∨ f = some 12))) ∧
    ((installModpack reg dir0 pack f).2.1 ≠ reg →
      (installModpack reg dir0 pack f).2.2.1 =
        some ⟨some .new, some .new, some .new⟩) := by
  cases dir0 with
  | none =>
    simp only [installModpack, hfp]
    rw [if_neg h012]
    by_cases h4 : f = some 4
    · simp [h4]
    · rw [if_neg h4]
      rcases hcp : copyPhase f ⟨none, none, none⟩ with ⟨bad, d1⟩
      cases bad with
      | true => simp
      | false =>
        have hd1 := copyPhase_ok f _ d1 hcp
        subst hd1
        by_cases h11 : f = some 11
        · simp [finishPhase, h11]
        · by_cases h12 : f = some 12
          · simp [finishPhase, h11, h12]
          · simp [finishPhase, h11, h12]
  | some d0 =>
    simp only [installModpack, hfp]
    rw [if_neg h012]
    rcases hcp : copyPhase f d0 with ⟨bad, d1⟩
    cases bad with
    | true => simp
    | false =>
      have hd1 := copyPhase_ok f _ d1 hcp
      subst hd1
      by_cases h11 : f = some 11
      · simp [finishPhase, h11]
      · by_cases h12 : f = some 12
        · simp [finishPhase, h11, h12]
        · simp [finishPhase, h11, h12]

/-- A successful run persisted exactly the in-memory registry of its forge
phase, with the pack recorded. -/
theorem install_ok_shape (reg : Registry) (dir0 : Option InstallDir)
    (pack : MPModpack) (f : Option Nat)
    (h : (installModpack reg dir0 pack f).1 = .ok ()) :
    ∃ mem fn, forgePhase reg pack f = (.ok mem, fn) ∧
      (installModpack reg dir0 pack f).2.1 =
        { mem with installedModpacks := regSet mem.installedModpacks pack.name pack } ∧
      (installModpack reg dir0 pack f).2.2.2 = NetOp.packDownload :: fn := by
  by_cases h012 : f = some 0 ∨ f = some 1 ∨ f = some 2
  · exfalso
    simp [installModpack, h012] at h
  · rcases hfp : forgePhase reg pack f with ⟨res, fn⟩
    cases res with
    | error e =>
      exfalso
      simp [installModpack, h012, hfp] at h
    | ok mem =>
      refine ⟨mem, fn, rfl, ?_⟩
      cases dir0 with
      | none =>
        simp only [installModpack, hfp] at h ⊢
        rw [if_neg h012] at h ⊢
        by_cases h4 : f = some 4
        · rw [if_pos h4] at h
          exact absurd h (by simp)
        · rw [if_neg h4] at h ⊢
          rcases hcp : copyPhase f ⟨none, none, none⟩ with ⟨bad, d1⟩
          rw [hcp] at h
          cases bad with
          | true => simp at h
          | false =>
            by_cases h11 : f = some 11
            · simp [finishPhase, h11] at h
            · by_cases h12 : f = some 12
              · simp [finishPhase, h11, h12] at h
              · simp [finishPhase, h11, h12]
      | some d0 =>
        simp only [installModpack, hfp] at h ⊢
        rw [if_neg h012] at h ⊢
        rcases hcp : copyPhase f d0 with ⟨bad, d1⟩
        rw [hcp] at h
        cases bad with
        | true => simp at h
        | false =>
          by_cases h11 : f = some 11
          · simp [finishPhase, h11] at h
          · by_cases h12 : f = some 12
            · simp [finishPhase, h11, h12] at h
            · simp [finishPhase, h11, h12]



/-! ## Claims C2, C8 -/

/-- C2 (amended): the registry is persisted only after the copy has fully
succeeded — whenever the persisted registry differs from the initial one, all
three install-directory entries hold the new pack's content; and a failure at
any operation before the copy loop (operations 0-4) leaves both the persisted
registry and the install directory exactly as they were. -/
theorem c2_registry_persistence (reg : Registry) (dir0 : Option InstallDir)
    (pack : MPModpack) (f : Option Nat) :
    ((installModpack reg dir0 pack f).2.1 ≠ reg →
      (installModpack reg dir0 pack f).2.2.1 =
        some ⟨some .new, some .new, some .new⟩) ∧
    ((installModpack reg dir0 pack f).1 = .error () →
      (∀ n, f = some n → n < 5) →
      (installModpack reg dir0 pack f).2.1 = reg ∧
      (installModpack reg dir0 pack f).2.2.1 = dir0) := by
  constructor
  · intro hne
    by_cases h012 : f = some 0 ∨ f = some 1 ∨ f = some 2
    · exfalso
      apply hne
      simp [installModpack, h012]
    · rcases hfp : forgePhase reg pack f with ⟨res, fn⟩
      cases res with
      | error e =>
        exfalso
        apply hne
        simp [installModpack, h012, hfp]
      | ok mem => exact (install_after_ok reg mem fn dir0 pack f hfp h012).2.2 hne
  · intro herr hlt
    by_cases h012 : f = some 0 ∨ f = some 1 ∨ f = some 2
    · simp [installModpack, h012]
    · rcases hfp : forgePhase reg pack f with ⟨res, fn⟩
      cases res with
      | error e => simp [installModpack, h012, hfp]
      | ok mem =>
        have h11 : f ≠ some 11 := fun hc => by have := hlt 11 hc; omega
        have h12 : f ≠ some 12 := fun hc => by have := hlt 12 hc; omega
        cases dir0 with
        | none =>
          by_cases h4 : f = some 4
          · simp only [installModpack, hfp]
            rw [if_neg h012, if_pos h4]
            simp
          · exfalso
            have hcp := copyPhase_early f ⟨none, none, none⟩ hlt
            simp only [installModpack, hfp] at herr
            rw [if_neg h012, if_neg h4, hcp] at herr
            simp [finishPhase, h11, h12] at herr
        | some d0 =>
          exfalso
          have hcp := copyPhase_early f d0 hlt
          simp only [installModpack, hfp] at herr
          rw [if_neg h012, hcp] at herr
          simp [finishPhase, h11, h12] at herr

/-- C2 counterexample: installing a new version of pack p over an existing
installation with the copy of the config directory failing (operation 8).
The install fails before the registry is persisted — an "earlier step fails"
in the claim's sense — and the persisted registry is indeed unchanged, but
the previously installed pack is not left untouched on disk: its mods
directory has already been replaced and its config directory removed. -/
theorem c2_counterexample :
    (installModpack regPrev (some oldDirP) newPackP (some 8)).1 = .error () ∧
    (installModpack regPrev (some oldDirP) newPackP (some 8)).2.1 = regPrev ∧
    (installModpack regPrev (some oldDirP) newPackP (some 8)).2.2.1 ≠ some oldDirP := by
  refine ⟨rfl, rfl, ?_⟩
  decide

/-- Witness for C2 (amended) at a failing manifest load (operation 2): the
registry and the previous installation are untouched. -/
theorem c2_registry_persistence_witness :
    (installModpack regPrev (some oldDirP) newPackP (some 2)).2.1 = regPrev ∧
    (installModpack regPrev (some oldDirP) newPackP (some 2)).2.2.1 = some oldDirP :=
  (c2_registry_persistence regPrev (some oldDirP) newPackP (some 2)).2 rfl
    (fun n hn => by injection hn with h2; omega)

/-- C8: forge dependency dedupe.  (1) When the requested forge version is
already cached in the registry, no forge download is issued on any run and
the persisted forge-version list is unchanged.  (2) When it is absent and the
run succeeds, the forge download was issued and the persisted list gained
exactly that version.  (3) A run that fails at the forge download (operation
3) leaves the persisted registry entirely unchanged, so no pack is
registered. -/
theorem c8_forge_dedupe (reg : Registry) (dir0 : Option InstallDir)
    (pack : MPModpack) (f : Option Nat) :
    (pack.forgeVersion ≠ "" → pack.forgeVersion ∈ reg.forgeVersions →
      NetOp.forgeDownload ∉ (installModpack reg dir0 pack f).2.2.2 ∧
      (installModpack reg dir0 pack f).2.1.forgeVersions = reg.forgeVersions) ∧
    (pack.forgeVersion ≠ "" → pack.forgeVersion ∉ reg.forgeVersions →
      (installModpack reg dir0 pack f).1 = .ok () →
      NetOp.forgeDownload ∈ (installModpack reg dir0 pack f).2.2.2 ∧
      (installModpack reg dir0 pack f).2.1.forgeVersions =
        reg.forgeVersions ++ [pack.forgeVersion]) ∧
    ((installModpack reg dir0 pack f).1 = .error () → f = some 3 →
      (installModpack reg dir0 pack f).2.1 = reg) := by
  refine ⟨?_, ?_, ?_⟩
  · intro h1 h2
    have hfp := forgePhase_skip reg pack f h1 h2
    by_cases h012 : f = some 0 ∨ f = some 1 ∨ f = some 2
    · simp [installModpack, h012]
    · obtain ⟨htr, hreg, _⟩ := install_after_ok reg reg [] dir0 pack f hfp h012
      constructor
      · rw [htr]
        simp
      · rcases hreg with hreg | ⟨hreg, _⟩
        · rw [hreg]
        · rw [hreg]
  · intro h1 h2 hok
    obtain ⟨mem, fn, hfp, hreg, htr⟩ := install_ok_shape reg dir0 pack f hok
    have h3 : f ≠ some 3 := by
      intro hc
      rw [hc] at hfp
      simp [forgePhase, h1, h2] at hfp
    have hdl := forgePhase_download reg pack f h1 h2 h3
    rw [hdl] at hfp
    injection hfp with hres hfn
    injection hres with hmem
    constructor
    · rw [htr, ← hfn]
      simp
    · rw [hreg, ← hmem]
  · intro herr h3
    have h012 : ¬(f = some 0 ∨ f = some 1 ∨ f = some 2) := by
      rw [h3]
      decide
    rcases hfp : forgePhase reg pack f with ⟨res, fn⟩
    cases res with
    | error e => simp [installModpack, h012, hfp]
    | ok mem =>
      obtain ⟨htr, hreg, hdir⟩ := install_after_ok reg mem fn dir0 pack f hfp h012
      rcases hreg with hreg | ⟨hreg, hok12⟩
      · exact hreg
      · rcases hok12 with hok | h12
        · exact absurd (herr.symm.trans hok) (by simp)
        · exfalso
          have := h3.symm.trans h12
          injection this with hbad
          omega

/-- Witness for C8 at a cached forge version on an unobstructed run: no forge
download happens and the cached list is unchanged. -/
theorem c8_forge_dedupe_witness :
    NetOp.forgeDownload ∉ (installModpack regW none packW none).2.2.2 ∧
    (installModpack regW none packW none).2.1.forgeVersions = regW.forgeVersions :=
  (c8_forge_dedupe regW none packW none).1 (by decide) (by decide)

theorem splitSlash_ne_nil (s : JsStr) : splitSlash s ≠ [] := by
  cases s with
  | nil => simp [splitSlash]
  | cons c cs =>
    simp only [splitSlash]
    split_ifs
    · simp
    · cases h : splitSlash cs <;> simp

theorem no_slash_mem_splitSlash (s : JsStr) : ∀ c ∈ splitSlash s, '/' ∉ c := by
  induction s with
  | nil => simp [splitSlash]
  | cons a as ih =>
    simp only [splitSlash]
    split_ifs with ha
    · intro c hc
      rcases List.mem_cons.mp hc with rfl | hc
      · simp
      · exact ih c hc
    · rcases h : splitSlash as with _ | ⟨p, ps⟩
      · exact absurd h (splitSlash_ne_nil as)
      · intro c hc
        rcases List.mem_cons.mp hc with rfl | hc
        · intro hmem
          rcases List.mem_cons.mp hmem with h1 | h1
          · exact ha h1.symm
          · exact ih p (by rw [h]; exact List.mem_cons_self p ps) h1
        · exact ih c (by rw [h]; exact List.mem_cons_of_mem p hc)

theorem splitSlash_append (x y : JsStr) :
    splitSlash (x ++ '/' :: y) = splitSlash x ++ splitSlash y := by
  induction x with
  | nil => simp [splitSlash]
  | cons a as ih =>
    by_cases ha : a = '/'
    · subst ha
      simp only [List.cons_append, splitSlash, List.append_eq, if_true, eq_self_iff_true]
      try rw [ih]
      try simp [splitSlash, ih]
    · simp only [List.cons_append, splitSlash, List.append_eq, if_neg ha]
      rw [ih]
      rcases h : splitSlash as with _ | ⟨p, ps⟩
      · exact absurd h (splitSlash_ne_nil as)
      · simp

theorem splitSlash_no_slash (c : JsStr) (h : '/' ∉ c) : splitSlash c = [c] := by
  induction c with
  | nil => simp [splitSlash]
  | cons a as ih =>
    have ha : a ≠ '/' := fun hc => h (hc ▸ List.mem_cons_self a as)
    have has : '/' ∉ as := fun hc => h (List.mem_cons_of_mem a hc)
    simp only [splitSlash, if_neg ha]
    rw [ih has]

theorem splitSlash_joinSlash (comps : List JsStr) (hne : comps ≠ [])
    (hns : ∀ c ∈ comps, '/' ∉ c) :
    splitSlash (joinSlash comps) = comps := by
  induction comps with
  | nil => exact absurd rfl hne
  | cons c cs ih =>
    cases cs with
    | nil =>
      simp only [joinSlash]
      exact splitSlash_no_slash c (hns c (List.mem_cons_self c []))
    | cons c2 cs2 =>
      have hstep : joinSlash (c :: c2 :: cs2) = c ++ '/' :: joinSlash (c2 :: cs2) := rfl
      rw [hstep, splitSlash_append,
        splitSlash_no_slash c (hns c (List.mem_cons_self c _)),
        ih (by simp) (fun d hd => hns d (List.mem_cons_of_mem c hd))]
      rfl

theorem goodComp_iff (c : JsStr) : goodComp c = true ↔ c ≠ [] ∧ c ≠ ['.'] := by
  simp [goodComp, not_or]

theorem normStep_skip (a : Bool) (st : List JsStr) (c : JsStr)
    (h : c = [] ∨ c = ['.']) : normStep a st c = st := by
  unfold normStep
  rw [if_pos h]

theorem normStep_push (a : Bool) (st : List JsStr) (c : JsStr)
    (h1 : c ≠ []) (h2 : c ≠ ['.']) (h3 : c ≠ dd) : normStep a st c = c :: st := by
  unfold normStep
  rw [if_neg (by simp [h1, h2]), if_neg h3]

theorem normStep_dd_nil (a : Bool) :
    normStep a [] dd = if a then [dd] else [] := by
  unfold normStep
  rw [if_neg (by decide : ¬(dd = [] ∨ dd = ['.'])), if_pos rfl]

theorem normStep_dd_pop (a : Bool) (top : JsStr) (rest : List JsStr)
    (h : top ≠ dd) : normStep a (top :: rest) dd = rest := by
  unfold normStep
  rw [if_neg (by decide : ¬(dd = [] ∨ dd = ['.'])), if_pos rfl]
  show (if top = dd then (if a then dd :: top :: rest else top :: rest) else rest) = rest
  exact if_neg h

theorem normStep_dd_dd (a : Bool) (rest : List JsStr) :
    normStep a (dd :: rest) dd =
      if a then dd :: dd :: rest else dd :: rest := by
  unfold normStep
  rw [if_neg (by decide : ¬(dd = [] ∨ dd = ['.'])), if_pos rfl]
  show (if dd = dd then (if a then dd :: dd :: rest else dd :: rest) else rest) = _
  rw [if_pos rfl]

/-- With `allowAbove = false` no `..` component ever enters the stack. -/
theorem no_dd_foldl_false (l : List JsStr) :
    ∀ stack, dd ∉ stack → dd ∉ l.foldl (normStep false) stack := by
  induction l with
  | nil => intro st h; simpa using h
  | cons c cs ih =>
    intro st h
    apply ih
    by_cases h1 : c = [] ∨ c = ['.']
    · rw [normStep_skip _ _ _ h1]
      exact h
    · push_neg at h1
      by_cases h2 : c = dd
      · subst h2
        cases st with
        | nil =>
          rw [normStep_dd_nil]
          simp
        | cons top rest =>
          have htop : top ≠ dd := fun hc => h (hc ▸ List.mem_cons_self _ _)
          rw [normStep_dd_pop _ _ _ htop]
          exact fun hc => h (List.mem_cons_of_mem _ hc)
      · rw [normStep_push _ _ _ h1.1 h1.2 h2]
        intro hc
        rcases List.mem_cons.mp hc with hc1 | hc2
        · exact h2 hc1.symm
        · exact h hc2

theorem normStep_true_clean (st : List JsStr) (c : JsStr) (h : cleanStack st) :
    cleanStack (normStep true st c) := by
  obtain ⟨pre, k, hs, hna⟩ := h
  by_cases h1 : c = [] ∨ c = ['.']
  · rw [normStep_skip _ _ _ h1]
    exact ⟨pre, k, hs, hna⟩
  · push_neg at h1
    by_cases h2 : c = dd
    · subst h2
      subst hs
      cases pre with
      | nil =>
        simp only [List.nil_append]
        cases k with
        | zero =>
          rw [List.replicate_zero, normStep_dd_nil, if_pos rfl]
          exact ⟨[], 1, by simp, by simp⟩
        | succ k2 =>
          rw [List.replicate_succ, normStep_dd_dd, if_pos rfl]
          refine ⟨[], k2 + 2, ?_, by simp⟩
          simp [List.replicate_succ]
      | cons x xs =>
        have hx : x ≠ dd := fun hc => hna (hc ▸ List.mem_cons_self x xs)
        rw [List.cons_append, normStep_dd_pop _ _ _ hx]
        exact ⟨xs, k, rfl, fun hc => hna (List.mem_cons_of_mem x hc)⟩
    · rw [normStep_push _ _ _ h1.1 h1.2 h2]
      refine ⟨c :: pre, k, by rw [hs, List.cons_append], ?_⟩
      intro hc
      rcases List.mem_cons.mp hc with hc1 | hc2
      · exact h2 hc1.symm
      · exact hna hc2

theorem foldl_normStep_true_clean (l : List JsStr) :
    ∀ stack, cleanStack stack → cleanStack (l.foldl (normStep true) stack) := by
  induction l with
  | nil => intro st h; exact h
  | cons c cs ih => intro st h; exact ih _ (normStep_true_clean st c h)

/-- Provenance of stack entries: anything in the final stack was already in
the initial stack, is a `..`, or is a good component of the input. -/
theorem mem_foldl_normStep (a : Bool) (l : List JsStr) :
    ∀ stack c, c ∈ l.foldl (normStep a) stack →
      c ∈ stack ∨ c = dd ∨ (c ∈ l ∧ c ≠ [] ∧ c ≠ ['.']) := by
  induction l with
  | nil => intro st c h; exact Or.inl h
  | cons x xs ih =>
    intro st c h
    rcases ih (normStep a st x) c h with h1 | h2 | h3
    · by_cases g1 : x = [] ∨ x = ['.']
      · rw [normStep_skip _ _ _ g1] at h1
        exact Or.inl h1
      · push_neg at g1
        by_cases g2 : x = dd
        · subst g2
          cases st with
          | nil =>
            rw [normStep_dd_nil] at h1
            cases a with
            | false => simp at h1
            | true =>
              rw [if_pos rfl] at h1
              rcases List.mem_cons.mp h1 with hc | hc
              · exact Or.inr (Or.inl hc)
              · simp at hc
          | cons top rest =>
            by_cases htop : top = dd
            · subst htop
              rw [normStep_dd_dd] at h1
              cases a with
              | false =>
                rw [if_neg (by simp)] at h1
                exact Or.inl h1
              | true =>
                rw [if_pos rfl] at h1
                rcases List.mem_cons.mp h1 with hc | hc
                · exact Or.inr (Or.inl hc)
                · exact Or.inl hc
            · rw [normStep_dd_pop _ _ _ htop] at h1
              exact Or.inl (List.mem_cons_of_mem top h1)
        · rw [normStep_push _ _ _ g1.1 g1.2 g2] at h1
          rcases List.mem_cons.mp h1 with hc | hc
          · subst hc
            exact Or.inr (Or.inr ⟨List.mem_cons_self _ _, g1.1, g1.2⟩)
          · exact Or.inl hc
    · exact Or.inr (Or.inl h2)
    · exact Or.inr (Or.inr ⟨List.mem_cons_of_mem x h3.1, h3.2⟩)

/-- Folding components none of which is `..` just pushes the good ones. -/
theorem foldl_normStep_no_dd_input (a : Bool) (l : List JsStr) :
    ∀ stack, dd ∉ l →
      l.foldl (normStep a) stack = (l.filter goodComp).reverse ++ stack := by
  induction l with
  | nil => intro st _; simp
  | cons c cs ih =>
    intro st h
    have hc : c ≠ dd := fun hcc => h (hcc ▸ List.mem_cons_self _ _)
    have hcs : dd ∉ cs := fun hcc => h (List.mem_cons_of_mem c hcc)
    by_cases hg : c = [] ∨ c = ['.']
    · have hfilter : goodComp c = false := by
        rcases hg with hg | hg <;> simp [goodComp, hg]
      simp only [List.foldl_cons, normStep_skip _ _ _ hg, List.filter_cons, hfilter]
      exact ih st hcs
    · push_neg at hg
      have hfilter : goodComp c = true := (goodComp_iff c).mpr hg
      simp only [List.foldl_cons, normStep_push _ _ _ hg.1 hg.2 hc,
        List.filter_cons, hfilter, if_true]
      rw [ih (c :: st) hcs]
      simp

theorem joinSlash_ne_nil (C : List JsStr) (h : C ≠ []) (h2 : ∀ c ∈ C, c ≠ []) :
    joinSlash C ≠ [] := by
  cases C with
  | nil => exact absurd rfl h
  | cons c cs =>
    cases cs with
    | nil => exact h2 c (List.mem_cons_self c [])
    | cons d ds => simp [joinSlash]

theorem splitSlash_ddslash (r : JsStr) :
    splitSlash ('.' :: '.' :: '/' :: r) = dd :: splitSlash r := by
  have he : ('.' :: '.' :: '/' :: r : JsStr) = dd ++ '/' :: r := rfl
  rw [he, splitSlash_append, splitSlash_no_slash dd (by decide)]
  rfl

theorem splitSlash_cons_ne (c : Char) (s : JsStr) (hc : c ≠ '/') :
    ∃ p ps, splitSlash s = p :: ps ∧ splitSlash (c :: s) = (c :: p) :: ps := by
  rcases hsp : splitSlash s with _ | ⟨p, ps⟩
  · exact absurd hsp (splitSlash_ne_nil s)
  · refine ⟨p, ps, rfl, ?_⟩
    simp only [splitSlash, if_neg hc, hsp]

/-- When the leading component is not `..`, only-leading-dots means no dots
at all. -/
theorem onlyLeadingDots_no_head_dd (s : JsStr) (h : onlyLeadingDots s)
    (hhd : (splitSlash s).head? ≠ some dd) : dd ∉ splitSlash s := by
  obtain ⟨k, bc, heq, hnb⟩ := h
  cases k with
  | zero =>
    rw [heq]
    simpa using hnb
  | succ k2 =>
    exfalso
    apply hhd
    rw [heq, List.replicate_succ]
    rfl

theorem normComps_false_no_dd (l : List JsStr) : dd ∉ normComps false l := by
  unfold normComps
  rw [List.mem_reverse]
  exact no_dd_foldl_false l [] (by simp)

theorem normComps_true_shape (l : List JsStr) :
    ∃ k ys, normComps true l = List.replicate k dd ++ ys ∧ dd ∉ ys := by
  obtain ⟨pre, k, hs, hna⟩ :=
    foldl_normStep_true_clean l [] ⟨[], 0, by simp, by simp⟩
  refine ⟨k, pre.reverse, ?_, ?_⟩
  · unfold normComps
    rw [hs, List.reverse_append, List.reverse_replicate]
  · simpa using hna

theorem normComps_mem (a : Bool) (l : List JsStr) (c : JsStr)
    (hc : c ∈ normComps a l) : c = dd ∨ (c ∈ l ∧ c ≠ [] ∧ c ≠ ['.']) := by
  unfold normComps at hc
  rw [List.mem_reverse] at hc
  rcases mem_foldl_normStep a l [] c hc with h1 | h2 | h3
  · simp at h1
  · exact Or.inl h2
  · exact Or.inr h3

theorem normComps_slash (a : Bool) (p : JsStr) (c : JsStr)
    (hc : c ∈ normComps a (splitSlash p)) : '/' ∉ c := by
  rcases normComps_mem a _ c hc with h | h
  · subst h
    decide
  · exact no_slash_mem_splitSlash p c h.1

theorem normComps_ne_nil_mem (a : Bool) (l : List JsStr) (c : JsStr)
    (hc : c ∈ normComps a l) : c ≠ [] := by
  rcases normComps_mem a l c hc with h | h
  · subst h
    decide
  · exact h.2.1

/-- The output of Node normalize has `..` components only as a leading run. -/
theorem posixNormalize_onlyLeadingDots (p : JsStr) :
    onlyLeadingDots (posixNormalize p) := by
  by_cases h0 : p = []
  · subst h0
    exact ⟨0, [['.']], rfl, by decide⟩
  · by_cases habs : p.head? = some '/'
    · have hred : posixNormalize p =
          '/' :: (if joinSlash (normComps false (splitSlash p)) ≠ [] ∧
                     p.getLast? = some '/'
                  then joinSlash (normComps false (splitSlash p)) ++ ['/']
                  else joinSlash (normComps false (splitSlash p))) := by
        simp only [posixNormalize, if_neg h0, if_pos habs]
      rw [hred]
      have hnd := normComps_false_no_dd (splitSlash p)
      have hslash := fun c hc => normComps_slash false p c hc
      by_cases hCe : normComps false (splitSlash p) = []
      · rw [hCe]
        rw [if_neg (by simp [joinSlash])]
        exact ⟨0, [[], []], rfl, by decide⟩
      · have hroundtrip := splitSlash_joinSlash _ hCe hslash
        by_cases htr : joinSlash (normComps false (splitSlash p)) ≠ [] ∧
            p.getLast? = some '/'
        · rw [if_pos htr]
          refine ⟨0, [] :: (normComps false (splitSlash p) ++ [[]]), ?_, ?_⟩
          · have h1 : splitSlash ('/' :: (joinSlash (normComps false (splitSlash p)) ++ ['/'])) =
                [] :: splitSlash (joinSlash (normComps false (splitSlash p)) ++ ['/']) := by
              simp [splitSlash]
            rw [h1]
            have h2 : (joinSlash (normComps false (splitSlash p)) ++ ['/'] : JsStr) =
                joinSlash (normComps false (splitSlash p)) ++ '/' :: [] := rfl
            rw [h2, splitSlash_append, hroundtrip]
            rfl
          · intro hmem
            rcases List.mem_cons.mp hmem with h1 | h1
            · exact absurd h1 (by decide)
            · rcases List.mem_append.mp h1 with h2 | h2
              · exact hnd h2
              · exact absurd (List.mem_singleton.mp h2) (by decide)
        · rw [if_neg htr]
          refine ⟨0, [] :: normComps false (splitSlash p), ?_, ?_⟩
          · have h1 : splitSlash ('/' :: joinSlash (normComps false (splitSlash p))) =
                [] :: splitSlash (joinSlash (normComps false (splitSlash p))) := by
              simp [splitSlash]
            rw [h1, hroundtrip]
            rfl
          · intro hmem
            rcases List.mem_cons.mp hmem with h1 | h1
            · exact absurd h1 (by decide)
            · exact hnd h1
    · have hred : posixNormalize p =
          (if (if joinSlash (normComps true (splitSlash p)) = [] then ['.']
               else joinSlash (normComps true (splitSlash p))) ≠ [] ∧
              p.getLast? = some '/'
           then (if joinSlash (normComps true (splitSlash p)) = [] then ['.']
                 else joinSlash (normComps true (splitSlash p))) ++ ['/']
           else (if joinSlash (normComps true (splitSlash p)) = [] then ['.']
                 else joinSlash (normComps true (splitSlash p)))) := by
        simp only [posixNormalize, if_neg h0, if_neg habs]
      rw [hred]
      obtain ⟨k, ys, hC, hys⟩ := normComps_true_shape (splitSlash p)
      have hslash := fun c hc => normComps_slash true p c hc
      by_cases hCe : joinSlash (normComps true (splitSlash p)) = []
      · rw [if_pos hCe]
        by_cases htr : (['.'] : JsStr) ≠ [] ∧ p.getLast? = some '/'
        · rw [if_pos htr]
          exact ⟨0, [['.'], []], rfl, by decide⟩
        · rw [if_neg htr]
          exact ⟨0, [['.']], rfl, by decide⟩
      · rw [if_neg hCe]
        have hCne : normComps true (splitSlash p) ≠ [] := by
          intro hc
          exact hCe (by rw [hc]; rfl)
        have hroundtrip := splitSlash_joinSlash _ hCne hslash
        by_cases htr : joinSlash (normComps true (splitSlash p)) ≠ [] ∧
            p.getLast? = some '/'
        · rw [if_pos htr]
          refine ⟨k, ys ++ [[]], ?_, ?_⟩
          · have h2 : (joinSlash (normComps true (splitSlash p)) ++ ['/'] : JsStr) =
                joinSlash (normComps true (splitSlash p)) ++ '/' :: [] := rfl
            rw [h2, splitSlash_append, hroundtrip, hC]
            simp [List.append_assoc, splitSlash]
          · intro hmem
            rcases List.mem_append.mp hmem with h1 | h1
            · exact hys h1
            · exact absurd (List.mem_singleton.mp h1) (by decide)
        · rw [if_neg htr]
          exact ⟨k, ys, by rw [hroundtrip, hC], hys⟩

theorem stripParent_cons_cons (a b : Char) (s2 : JsStr) :
    stripParent (a :: b :: s2) =
      if a = '.' ∧ b = '.' then
        match s2 with
        | [] => []
        | c :: rest2 =>
          if c = '/' ∨ c = '\\' then stripParent rest2
          else a :: b :: c :: rest2
      else a :: b :: s2 := by
  rw [stripParent.eq_def]
  cases s2 <;> rfl

theorem splitSlash_head_two (a b : Char) (r : JsStr) (ha : a ≠ '/') :
    (∃ ps, b = '/' ∧ splitSlash (a :: b :: r) = [a] :: ps) ∨
    (∃ p2 ps, b ≠ '/' ∧ splitSlash (a :: b :: r) = (a :: b :: p2) :: ps) := by
  by_cases hb : b = '/'
  · subst hb
    left
    obtain ⟨p, ps, hsp, hcons⟩ := splitSlash_cons_ne a ('/' :: r) ha
    have hsl : splitSlash ('/' :: r) = [] :: splitSlash r := by
      simp [splitSlash]
    rw [hsl] at hsp
    injection hsp with e1 e2
    subst e1
    exact ⟨ps, rfl, hcons⟩
  · right
    obtain ⟨p, ps, hsp, hcons⟩ := splitSlash_cons_ne a (b :: r) ha
    obtain ⟨p2, ps2, hsp2, hcons2⟩ := splitSlash_cons_ne b r hb
    rw [hcons2] at hsp
    injection hsp with e1 e2
    subst e1
    subst e2
    exact ⟨p2, ps2, hb, hcons⟩

/-- If the string does not begin with `..` followed by a separator or its
end, its first component is not `..`. -/
theorem head_ne_dd_of_no_match (a b : Char) (r : JsStr)
    (h : ¬(a = '.' ∧ b = '.') ∨ (∃ c r2, r = c :: r2 ∧ c ≠ '/' ∧ c ≠ '\\')) :
    (splitSlash (a :: b :: r)).head? ≠ some dd := by
  by_cases ha : a = '/'
  · subst ha
    have hsl : splitSlash ('/' :: b :: r) = [] :: splitSlash (b :: r) := by
      simp [splitSlash]
    rw [hsl]
    intro hc
    injection hc with hc2
    exact absurd hc2 (by decide)
  · rcases splitSlash_head_two a b r ha with ⟨ps, hb, hcons⟩ | ⟨p2, ps, hb, hcons⟩
    · rw [hcons]
      intro hc
      injection hc with hc2
      have := congrArg List.length hc2
      simp [dd] at this
    · rw [hcons]
      intro hc
      injection hc with hc2
      -- hc2 : a :: b :: p2 = dd, so a = '.', b = '.', p2 = []
      have ha2 : a = '.' := by
        have := congrArg (fun l => List.head? l) hc2
        simpa [dd] using this
      have hrest : b :: p2 = ['.'] := by
        have := congrArg List.tail hc2
        simpa [dd] using this
      have hb2 : b = '.' := by
        injection hrest
      rcases h with h1 | ⟨c, r2, hr, hc1, hc2'⟩
      · exact h1 ⟨ha2, hb2⟩
      · -- b ≠ '/' and r = c :: r2 with c not a separator, but then the first
        -- component continues past b, contradicting b :: p2 = ['.']
        have hp2 : p2 = [] := by
          injection hrest
        -- recompute the head component of splitSlash (b :: r): it is b :: p2,
        -- but with r = c :: r2 and c ≠ '/' it must be b :: c :: something
        subst hr
        rcases splitSlash_head_two b c r2 hb with ⟨ps3, hcc, hcons3⟩ | ⟨p3, ps3, hcc, hcons3⟩
        · exact hc1 hcc
        · -- splitSlash (b :: c :: r2) = (b :: c :: p3) :: ps3
          -- also splitSlash (a :: b :: c :: r2) = (a :: b :: p2) :: ps
          obtain ⟨q, qs, hq, hq2⟩ := splitSlash_cons_ne a (b :: c :: r2) ha
          rw [hcons3] at hq
          injection hq with e1 e2
          rw [hcons] at hq2
          injection hq2 with e3 e4
          -- e3 : a :: b :: p2 = a :: q with q = b :: c :: p3
          rw [← e1] at e3
          injection e3 with _ e5
          injection e5 with _ e6
          -- e6 : p2 = c :: p3 contradicts p2 = []
          rw [hp2] at e6
          exact List.noConfusion e6

/-- Stripping the leading `..` groups from a string whose `..` components are
all leading leaves no `..` component at all. -/
theorem stripParent_no_dd_aux (n : Nat) :
    ∀ s : JsStr, s.length ≤ n → onlyLeadingDots s →
      dd ∉ splitSlash (stripParent s) := by
  induction n with
  | zero =>
    intro s hlen _
    have hs : s = [] := List.length_eq_zero.mp (Nat.le_zero.mp hlen)
    subst hs
    decide
  | succ n0 ih =>
    intro s hlen h
    rcases s with _ | ⟨a, s1⟩
    · decide
    · rcases s1 with _ | ⟨b, s2⟩
      · -- single character: stripParent [a] = [a]
        have hstrip : stripParent [a] = [a] := rfl
        rw [hstrip]
        by_cases ha : a = '/'
        · subst ha
          decide
        · rw [splitSlash_no_slash [a]
            (fun hm => ha (List.mem_singleton.mp hm).symm)]
          intro hmem
          have he := List.mem_singleton.mp hmem
          have := congrArg List.length he
          simp [dd] at this
      · by_cases hab : a = '.' ∧ b = '.'
        · obtain ⟨rfl, rfl⟩ := hab
          rcases s2 with _ | ⟨c, rest2⟩
          · have hstrip : stripParent ['.', '.'] = [] := rfl
            rw [hstrip]
            decide
          · by_cases hsep : c = '/' ∨ c = '\\'
            · have hstrip : stripParent ('.' :: '.' :: c :: rest2) =
                  stripParent rest2 := by
                simp [stripParent, hsep]
              rw [hstrip]
              apply ih rest2 (by simp at hlen ⊢; omega)
              rcases hsep with rfl | rfl
              · obtain ⟨k, bc, heq, hnb⟩ := h
                rw [splitSlash_ddslash] at heq
                cases k with
                | zero =>
                  exfalso
                  simp only [List.replicate_zero, List.nil_append] at heq
                  apply hnb
                  rw [← heq]
                  exact List.mem_cons_self _ _
                | succ k2 =>
                  rw [List.replicate_succ, List.cons_append] at heq
                  injection heq with _ htail
                  exact ⟨k2, bc, htail, hnb⟩
              · obtain ⟨p, ps, hsp, hcons⟩ :=
                  splitSlash_cons_ne '\\' rest2 (by decide)
                obtain ⟨q, qs, hq, hq2⟩ :=
                  splitSlash_cons_ne '.' ('\\' :: rest2) (by decide)
                rw [hcons] at hq
                injection hq with e1 e2
                subst e1
                subst e2
                obtain ⟨w, ws, hw, hw2⟩ :=
                  splitSlash_cons_ne '.' ('.' :: '\\' :: rest2) (by decide)
                rw [hq2] at hw
                injection hw with e3 e4
                subst e3
                subst e4
                -- hw2 : splitSlash ('.'::'.'::'\\'::rest2) = ('.'::'.'::'\\'::p) :: ps
                obtain ⟨k, bc, heq, hnb⟩ := h
                rw [hw2] at heq
                have hk : k = 0 := by
                  cases k with
                  | zero => rfl
                  | succ k2 =>
                    exfalso
                    rw [List.replicate_succ, List.cons_append] at heq
                    injection heq with e5 _
                    have := congrArg List.length e5
                    simp [dd] at this
                subst hk
                simp only [List.replicate_zero, List.nil_append] at heq
                subst heq
                by_cases hp : p = dd
                · refine ⟨1, ps, ?_, fun hc => hnb (List.mem_cons_of_mem _ hc)⟩
                  rw [hsp, hp]
                  rfl
                · refine ⟨0, p :: ps, by rw [hsp]; rfl, ?_⟩
                  intro hc
                  rcases List.mem_cons.mp hc with hc1 | hc1
                  · exact hp hc1.symm
                  · exact hnb (List.mem_cons_of_mem _ hc1)
            · have hstrip : stripParent ('.' :: '.' :: c :: rest2) =
                  '.' :: '.' :: c :: rest2 := by
                simp [stripParent, hsep]
              rw [hstrip]
              push_neg at hsep
              exact onlyLeadingDots_no_head_dd _ h
                (head_ne_dd_of_no_match '.' '.' (c :: rest2)
                  (Or.inr ⟨c, rest2, rfl, hsep.1, hsep.2⟩))
        · have hstrip : stripParent (a :: b :: s2) = a :: b :: s2 := by
            rw [stripParent_cons_cons, if_neg hab]
          rw [hstrip]
          exact onlyLeadingDots_no_head_dd _ h
            (head_ne_dd_of_no_match a b s2 (Or.inl hab))

theorem stripParent_no_dd (s : JsStr) (h : onlyLeadingDots s) :
    dd ∉ splitSlash (stripParent s) :=
  stripParent_no_dd_aux s.length s le_rfl h

theorem char_toNat_ofNat (n : Nat) (h : n < 55296) : (Char.ofNat n).toNat = n := by
  unfold Char.ofNat
  rw [dif_pos (Or.inl h)]
  rfl

theorem toLower_eq_dot (c : Char) (h : c.toLower = '.') : c = '.' := by
  simp only [Char.toLower] at h
  split_ifs at h with hc
  · exfalso
    obtain ⟨h1, h2⟩ := hc
    have h3 := congrArg Char.toNat h
    rw [char_toNat_ofNat (c.toNat + 32) (by omega)] at h3
    have h4 : c.toNat + 32 = 46 := h3
    omega
  · exact h

theorem toLower_eq_slash (c : Char) (h : c.toLower = '/') : c = '/' := by
  simp only [Char.toLower] at h
  split_ifs at h with hc
  · exfalso
    obtain ⟨h1, h2⟩ := hc
    have h3 := congrArg Char.toNat h
    rw [char_toNat_ofNat (c.toNat + 32) (by omega)] at h3
    have h4 : c.toNat + 32 = 47 := h3
    omega
  · exact h

theorem splitSlash_map_toLower (s : JsStr) :
    splitSlash (s.map Char.toLower) =
      (splitSlash s).map (List.map Char.toLower) := by
  induction s with
  | nil => simp [splitSlash]
  | cons a as ih =>
    by_cases ha : a = '/'
    · subst ha
      have hl : Char.toLower '/' = '/' := by decide
      simp only [List.map_cons, hl, splitSlash, if_pos rfl]
      rw [ih]
      simp
    · have ha2 : Char.toLower a ≠ '/' := fun hc => ha (toLower_eq_slash a hc)
      obtain ⟨p, ps, hsp, hcons⟩ := splitSlash_cons_ne a as ha
      obtain ⟨p2, ps2, hsp2, hcons2⟩ :=
        splitSlash_cons_ne (Char.toLower a) (as.map Char.toLower) ha2
      rw [ih, hsp] at hsp2
      simp only [List.map_cons] at hsp2
      injection hsp2 with e1 e2
      simp only [List.map_cons]
      rw [hcons2, hcons]
      simp [e1, e2]

theorem map_toLower_eq_dd (c : JsStr) (h : c.map Char.toLower = dd) : c = dd := by
  rcases c with _ | ⟨x, c1⟩
  · simp [dd] at h
  · rcases c1 with _ | ⟨y, c2⟩
    · simp [dd] at h
    · rcases c2 with _ | ⟨z, c3⟩
      · simp only [List.map_cons, List.map_nil, dd] at h
        injection h with e1 h2
        injection h2 with e2 _
        rw [show (dd : JsStr) = ['.', '.'] from rfl,
          toLower_eq_dot x e1, toLower_eq_dot y e2]
      · simp [dd] at h

/-- The sanitized pack name has no `..` component. -/
theorem sanitize_no_dd (name : JsStr) : dd ∉ splitSlash (sanitizeName name) := by
  unfold sanitizeName toLowerJs
  rw [splitSlash_map_toLower]
  intro hm
  obtain ⟨c, hcm, hce⟩ := List.mem_map.mp hm
  have hc := map_toLower_eq_dd c hce
  exact stripParent_no_dd _ (posixNormalize_onlyLeadingDots name) (hc ▸ hcm)

theorem normComps_false_clean_list (C : List JsStr) (hdd : dd ∉ C)
    (hgood : ∀ c ∈ C, goodComp c = true) (extra : List JsStr)
    (hex : extra = [] ∨ extra = [[]]) :
    normComps false ([] :: (C ++ extra)) = C := by
  unfold normComps
  have hdd2 : dd ∉ ([] :: (C ++ extra) : List JsStr) := by
    intro hm
    rcases List.mem_cons.mp hm with h1 | h1
    · exact absurd h1 (by decide)
    · rcases List.mem_append.mp h1 with h2 | h2
      · exact hdd h2
      · rcases hex with rfl | rfl
        · simp at h2
        · exact absurd (List.mem_singleton.mp h2) (by decide)
  rw [foldl_normStep_no_dd_input false _ [] hdd2, List.append_nil,
    List.reverse_reverse]
  have hfe : goodComp ([] : JsStr) = false := by decide
  simp only [List.filter_cons, hfe, Bool.false_eq_true, if_false]
  rw [List.filter_append, List.filter_eq_self.mpr hgood]
  rcases hex with rfl | rfl
  · simp
  · simp [List.filter, hfe]

/-- Resolving the normalized join: with the components of `joined` being the
home components, then `modpacks`, then `..`-free components, the resolved
install path extends the resolved home by the `modpacks` component. -/
theorem resolvedAbs_normalize_append (home : JsStr) (T : List JsStr)
    (hT : dd ∉ T) (joined : JsStr)
    (hjoin : splitSlash joined =
      splitSlash home ++ "modpacks".toList :: [] :: T)
    (hjne : joined ≠ []) (hjabs : joined.head? = some '/') :
    ∃ rest, resolvedAbs (posixNormalize joined) =
      resolvedAbs home ++ "modpacks".toList :: rest := by
  have hCdef : normComps false (splitSlash joined) =
      resolvedAbs home ++ "modpacks".toList :: T.filter goodComp := by
    rw [hjoin]
    unfold normComps resolvedAbs normComps
    rw [List.foldl_append, List.foldl_cons,
      normStep_push _ _ _ (by decide) (by decide) (by decide),
      List.foldl_cons, normStep_skip _ _ _ (Or.inl rfl),
      foldl_normStep_no_dd_input false T _ hT]
    simp [List.reverse_append]
  have hCne : normComps false (splitSlash joined) ≠ [] := by
    rw [hCdef]
    simp
  have hslash := fun c hc => normComps_slash false joined c hc
  have hgood : ∀ c ∈ normComps false (splitSlash joined), goodComp c = true := by
    intro c hc
    rcases normComps_mem false _ c hc with h1 | h1
    · exact absurd (h1 ▸ hc) (normComps_false_no_dd _)
    · exact (goodComp_iff c).mpr ⟨h1.2.1, h1.2.2⟩
  have hdd : dd ∉ normComps false (splitSlash joined) := normComps_false_no_dd _
  have hround := splitSlash_joinSlash _ hCne hslash
  have hred : posixNormalize joined =
      '/' :: (if joinSlash (normComps false (splitSlash joined)) ≠ [] ∧
                 joined.getLast? = some '/'
              then joinSlash (normComps false (splitSlash joined)) ++ ['/']
              else joinSlash (normComps false (splitSlash joined))) := by
    simp only [posixNormalize, if_neg hjne, if_pos hjabs]
  refine ⟨T.filter goodComp, ?_⟩
  rw [hred]
  by_cases htr : joinSlash (normComps false (splitSlash joined)) ≠ [] ∧
      joined.getLast? = some '/'
  · rw [if_pos htr]
    have hsp2 : splitSlash
        ('/' :: (joinSlash (normComps false (splitSlash joined)) ++ ['/'])) =
        [] :: (normComps false (splitSlash joined) ++ [[]]) := by
      have h1 : splitSlash
          ('/' :: (joinSlash (normComps false (splitSlash joined)) ++ ['/'])) =
          [] :: splitSlash (joinSlash (normComps false (splitSlash joined)) ++ ['/']) := by
        simp [splitSlash]
      have h2 : (joinSlash (normComps false (splitSlash joined)) ++ ['/'] : JsStr) =
          joinSlash (normComps false (splitSlash joined)) ++ '/' :: [] := rfl
      rw [h1, h2, splitSlash_append, hround]
      rfl
    unfold resolvedAbs
    rw [hsp2, normComps_false_clean_list _ hdd hgood [[]] (Or.inr rfl), hCdef]
    rfl
  · rw [if_neg htr]
    have hsp2 : splitSlash ('/' :: joinSlash (normComps false (splitSlash joined))) =
        [] :: (normComps false (splitSlash joined) ++ []) := by
      have h1 : splitSlash ('/' :: joinSlash (normComps false (splitSlash joined))) =
          [] :: splitSlash (joinSlash (normComps false (splitSlash joined))) := by
        simp [splitSlash]
      rw [h1, hround, List.append_nil]
    unfold resolvedAbs
    rw [hsp2, normComps_false_clean_list _ hdd hgood [] (Or.inl rfl), hCdef]
    rfl

/-- C4: for every pack name, the installation directory
`path.join(home, 'modpacks/', sanitized(name))` resolves strictly inside the
registry home: its resolved component list is the resolved home followed by
the `modpacks` component (and possibly more), never anything above the home. -/
theorem c4_install_dir_inside (home name : JsStr)
    (habs : home.head? = some '/') :
    ∃ rest, resolvedAbs (installDir home name) =
      resolvedAbs home ++ "modpacks".toList :: rest := by
  obtain ⟨ht, rfl⟩ : ∃ ht, home = '/' :: ht := by
    cases home with
    | nil => simp at habs
    | cons hh ht2 =>
      injection habs with e
      exact ⟨ht2, by rw [e]⟩
  have hnd : dd ∉ splitSlash (sanitizeName name) := sanitize_no_dd name
  have hmps : ("modpacks/".toList : JsStr) = "modpacks".toList ++ ['/'] := by decide
  have hmpc_noslash : ('/' : Char) ∉ ("modpacks".toList : JsStr) := by decide
  by_cases hse : sanitizeName name = []
  · -- the sanitized name is empty and is filtered out of the join
    have hinstall : installDir ('/' :: ht) name =
        posixNormalize (('/' :: ht) ++ '/' :: "modpacks/".toList) := by
      unfold installDir pathJoin
      rw [hse]
      simp only [List.filter_cons, List.filter_nil]
      simp [joinSlash]
    rw [hinstall]
    have hjoin : splitSlash (('/' :: ht) ++ '/' :: "modpacks/".toList) =
        splitSlash ('/' :: ht) ++ "modpacks".toList :: [] :: [] := by
      rw [splitSlash_append, hmps]
      have h2 : ("modpacks".toList ++ ['/'] : JsStr) =
          "modpacks".toList ++ '/' :: [] := rfl
      rw [h2, splitSlash_append, splitSlash_no_slash _ hmpc_noslash]
      rfl
    exact resolvedAbs_normalize_append ('/' :: ht) [] (by simp) _ hjoin
      (by simp) rfl
  · have hinstall : installDir ('/' :: ht) name =
        posixNormalize (('/' :: ht) ++ '/' ::
          ("modpacks/".toList ++ '/' :: sanitizeName name)) := by
      unfold installDir pathJoin
      simp only [List.filter_cons, List.filter_nil]
      simp [joinSlash, hse]
    rw [hinstall]
    have hjoin : splitSlash (('/' :: ht) ++ '/' ::
        ("modpacks/".toList ++ '/' :: sanitizeName name)) =
        splitSlash ('/' :: ht) ++
          "modpacks".toList :: [] :: splitSlash (sanitizeName name) := by
      rw [splitSlash_append, hmps]
      have h2 : (("modpacks".toList ++ ['/']) ++ '/' :: sanitizeName name : JsStr) =
          "modpacks".toList ++ '/' :: ('/' :: sanitizeName name) := by
        simp
      rw [h2, splitSlash_append, splitSlash_no_slash _ hmpc_noslash]
      rfl
    exact resolvedAbs_normalize_append ('/' :: ht) (splitSlash (sanitizeName name))
      hnd _ hjoin (by simp) rfl

/-- Witness for C4 at the spec's own example: a registry home of
/root/.modpacker and the hostile pack name ../../escape. The install
directory resolves to home/modpacks/escape, strictly inside the home. -/
theorem c4_install_dir_inside_witness :
    (∃ rest, resolvedAbs (installDir "/root/.modpacker".toList "../../escape".toList) =
      resolvedAbs "/root/.modpacker".toList ++ "modpacks".toList :: rest) ∧
    installDir "/root/.modpacker".toList "../../escape".toList =
      "/root/.modpacker/modpacks/escape".toList :=
  ⟨c4_install_dir_inside "/root/.modpacker".toList "../../escape".toList rfl,
   by decide⟩

end Modpacker
